import Mathlib

/-!
# Verification of `maxcalorie.hh` (food-pantry 0/1 knapsack)

Shallow embedding of the two solvers of `maxcalorie.hh`:
`greedy_max_calories` (ratio-ranking heuristic) and `exhaustive_max_calories`
(bitmask subset enumeration), together with the data model they operate on.

Modelling conventions:
* C++ `double` is modelled as `ℚ` (exact arithmetic on the rationals); all
  weights/calories the program manipulates are finite decimal values, and the
  comparisons and sums in the claims are about their exact values.
* `std::shared_ptr<FoodItem>` handles are modelled by `FoodItem` values
  (`FoodVector` becomes `List FoodItem`); the program never mutates items.
* fixed-width `int` arithmetic is modelled by `ℕ`/`ℤ` with the overflow points
  made explicit (see `cppIntOfPow2`).
-/

/-- One food item (class `FoodItem`): description, weight in ounces, calories.
The constructor asserts a non-empty description and a positive weight; those
invariants appear as hypotheses where proofs need them. -/
structure FoodItem where
  description : String
  weight : ℚ
  calories : ℚ
deriving DecidableEq

/-- `sum_food_vector`: total weight and total calories of a food vector,
accumulated over the vector exactly as the source loop does. -/
def sum_food_vector (foods : List FoodItem) : ℚ × ℚ :=
  foods.foldl (fun t food => (t.1 + food.weight, t.2 + food.calories)) (0, 0)

/-- Total weight of a food vector (first component of `sum_food_vector`). -/
def weightSum : List FoodItem → ℚ
  | [] => 0
  | food :: rest => food.weight + weightSum rest

/-- Total calories of a food vector (second component of `sum_food_vector`). -/
def calSum : List FoodItem → ℚ
  | [] => 0
  | food :: rest => food.calories + calSum rest

/-- The pair `(calories/weight, item)` built by the first loop of
`greedy_max_calories` (struct `percentItem`). -/
structure percentItem where
  percent : ℚ
  item : FoodItem
deriving DecidableEq

/-- The comparator `sortPercentage` passed to `std::sort`: `firstSet` precedes
`secondSet` when its calories-per-weight percentage is strictly greater. -/
def sortPercentage (firstSet secondSet : percentItem) : Prop :=
  secondSet.percent < firstSet.percent

instance : DecidableRel sortPercentage :=
  fun a b => inferInstanceAs (Decidable (b.percent < a.percent))

/-- The ordering in which `std::sort` leaves the vector: `a` may stay before
`b` exactly when the comparator does not demand `b` before `a`. -/
def rankGE (a b : percentItem) : Prop :=
  ¬ sortPercentage b a

instance : DecidableRel rankGE :=
  fun a b => inferInstanceAs (Decidable (¬ sortPercentage b a))

instance : IsTotal percentItem rankGE :=
  ⟨fun a b => by
    unfold rankGE sortPercentage
    rcases le_total b.percent a.percent with h | h
    · exact Or.inl (not_lt.mpr h)
    · exact Or.inr (not_lt.mpr h)⟩

instance : IsTrans percentItem rankGE :=
  ⟨fun a b c hab hbc => by
    unfold rankGE sortPercentage at *
    exact not_lt.mpr (le_trans (not_lt.mp hbc) (not_lt.mp hab))⟩

/-- First loop of `greedy_max_calories`: pair every food with its
calories-per-weight percentage, in catalog order. -/
def percentItemVector (foods : List FoodItem) : List percentItem :=
  foods.map (fun food => ⟨food.calories / food.weight, food⟩)

/-- The ranking produced by the `std::sort` call of `greedy_max_calories`.
`std::sort` guarantees a permutation of the input that is sorted with respect
to the comparator `sortPercentage` (the relative order of equal-percentage
items is unspecified by the C++ standard); the embedding realises the sorted
permutation with `List.insertionSort`. -/
def percentRanking (foods : List FoodItem) : List percentItem :=
  List.insertionSort rankGE (percentItemVector foods)

/-- Second loop of `greedy_max_calories`: scan the ranking once, keeping the
running `capacity`; an item is appended to the output (a fresh copy, as in the
source) exactly when `capacity + weight ≤ total_weight`, in which case its
weight is added to `capacity`. -/
def greedyLoop (total_weight : ℚ) :
    List percentItem → ℚ → List FoodItem → List FoodItem
  | [], _, out => out
  | p :: rest, capacity, out =>
    if capacity + p.item.weight ≤ total_weight then
      greedyLoop total_weight rest (capacity + p.item.weight) (out ++ [p.item])
    else
      greedyLoop total_weight rest capacity out

/-- `greedy_max_calories`: rank by calories-per-weight, then scan the ranking
greedily under the weight budget `total_weight`. -/
def greedy_max_calories (foods : List FoodItem) (total_weight : ℚ) :
    List FoodItem :=
  greedyLoop total_weight (percentRanking foods) 0 []

/-- The greedy selection rule exactly as the spec words it: walk the ranking
with an accumulated weight, include an item iff the accumulated weight plus
the item's weight stays within `total_weight`, never revisit a rejected item.
`greedy_max_calories` is proved equal to this rule applied to its ranking. -/
def greedySelect (total_weight : ℚ) :
    List percentItem → ℚ → List FoodItem
  | [], _ => []
  | p :: rest, acc =>
    if acc + p.item.weight ≤ total_weight then
      p.item :: greedySelect total_weight rest (acc + p.item.weight)
    else
      greedySelect total_weight rest acc

/-- The subset of `foods` denoted by the bit pattern of `bit`
(bit `j` set ⇒ item `j` included), reading the counter least-significant bit
first, exactly as the inner loop's `(bit >> j) & 1` test does. -/
def bitFilter : ℕ → List FoodItem → List FoodItem
  | _, [] => []
  | bit, food :: rest =>
    (if bit % 2 = 1 then [food] else []) ++ bitFilter (bit / 2) rest

/-- Inner loop of `exhaustive_max_calories` for one counter value `bit`:
walk the items, testing bit `j` of the counter (read here by peeling the least
significant bit and halving, which is what `(bit >> j) & 1` for `j = 0,1,...`
computes); when the bit is set, push `foods[j]` onto the candidate and add its
weight and calories to the running totals; after every item — whether it was
added or not — the source re-checks `candTotalWeight <= total_weight` and
`candTotalCalories > bestTotalCalries` and records the candidate as the new
best on success. The state `best` carries `(BestFoodVector, bestTotalCalries)`. -/
def exhaustiveInner (total_weight : ℚ) :
    ℕ → List FoodItem → List FoodItem → ℚ → ℚ →
    List FoodItem × ℚ → List FoodItem × ℚ
  | _, [], _, _, _, best => best
  | bit, food :: rest, cand, candW, candC, best =>
    let cand' := if bit % 2 = 1 then cand ++ [food] else cand
    let candW' := if bit % 2 = 1 then candW + food.weight else candW
    let candC' := if bit % 2 = 1 then candC + food.calories else candC
    let best' :=
      if candW' ≤ total_weight then
        if best.2 < candC' then (cand', candC') else best
      else best
    exhaustiveInner total_weight (bit / 2) rest cand' candW' candC' best'

/-- `exhaustive_max_calories`: enumerate the counter `bit` from `0` to
`2^n - 1`, for each counter run the inner loop on a cleared candidate, and
return the best food vector found. The source computes the loop bound as
`int bitSize = pow(2, foods.size())`, which equals `2 ^ foods.length` exactly
whenever it fits a C++ `int`, i.e. for `foods.length ≤ 30`; from 31 items up
the conversion is undefined behavior (see `cppIntOfPow2`, which models the
conversion overflow included). Statements about the program's exhaustive
search therefore carry a `foods.length < 31` hypothesis confining them to the
faithful range; unrestricted lemmas about this definition are facts of the
embedding only. -/
def exhaustive_max_calories (foods : List FoodItem) (total_weight : ℚ) :
    List FoodItem :=
  ((List.range (2 ^ foods.length)).foldl
    (fun best bit => exhaustiveInner total_weight bit foods [] 0 0 best)
    ([], 0)).1

/-- One evaluation step of the spec's exhaustive algorithm: if the subset `S`
is feasible and its total calories strictly exceed the best so far, record
`S`; otherwise keep the current best. -/
def exStep (total_weight : ℚ) (best : List FoodItem × ℚ) (S : List FoodItem) :
    List FoodItem × ℚ :=
  if weightSum S ≤ total_weight ∧ best.2 < calSum S then (S, calSum S) else best

/-- Modelled from the spec: the exhaustive algorithm as §4.2 states it —
iterate the counter from `0` to `2^n - 1`, decode each counter into its
subset, evaluate that full subset exactly once (feasibility, then strict
improvement of the best), and return the best recorded subset, the empty
vector if no feasible subset had positive calories. -/
def exhaustiveSpec (foods : List FoodItem) (total_weight : ℚ) :
    List FoodItem :=
  ((List.range (2 ^ foods.length)).foldl
    (fun best bit => exStep total_weight best (bitFilter bit foods))
    ([], 0)).1

/-- The sequence of candidate vectors the inner loop of
`exhaustive_max_calories` holds after each of its iterations, for one counter
value: the loop re-checks feasibility and best-so-far against every one of
these prefix candidates. -/
def prefixEvents (cand : List FoodItem) : ℕ → List FoodItem → List (List FoodItem)
  | _, [] => []
  | bit, food :: rest =>
    let cand' := if bit % 2 = 1 then cand ++ [food] else cand
    cand' :: prefixEvents cand' (bit / 2) rest

/-- State of the spec's exhaustive algorithm after the first `B` counter
values: the best feasible subset recorded so far and its total calories. -/
def specState (foods : List FoodItem) (total_weight : ℚ) (B : ℕ) :
    List FoodItem × ℚ :=
  (List.range B).foldl
    (fun best bit => exStep total_weight best (bitFilter bit foods)) ([], 0)

/-- Model of `int bitSize = pow(2, foods.size())`: `pow` returns `2^n` exactly
as a `double` (a power of two), and the conversion to a 32-bit `int` is
defined only when the value fits, i.e. when `2^n < 2^31`; outside that range
the conversion is undefined behavior, modelled as `none`. -/
def cppIntOfPow2 (n : ℕ) : Option ℤ :=
  if 2 ^ n < 2 ^ 31 then some ((2 : ℤ) ^ n) else none

section BasicLemmas

theorem weightSum_append (l₁ l₂ : List FoodItem) :
    weightSum (l₁ ++ l₂) = weightSum l₁ + weightSum l₂ := by
  induction l₁ with
  | nil => simp [weightSum]
  | cons f r ih => simp [weightSum, ih]; ring

theorem calSum_append (l₁ l₂ : List FoodItem) :
    calSum (l₁ ++ l₂) = calSum l₁ + calSum l₂ := by
  induction l₁ with
  | nil => simp [calSum]
  | cons f r ih => simp [calSum, ih]; ring

theorem sum_food_vector_eq (foods : List FoodItem) :
    sum_food_vector foods = (weightSum foods, calSum foods) := by
  have key : ∀ (l : List FoodItem) (a b : ℚ),
      l.foldl (fun t food => (t.1 + food.weight, t.2 + food.calories)) (a, b) =
        (a + weightSum l, b + calSum l) := by
    intro l
    induction l with
    | nil => intro a b; simp [weightSum, calSum]
    | cons f r ih =>
      intro a b
      simp only [List.foldl_cons, ih, weightSum, calSum]
      rw [Prod.mk.injEq]
      exact ⟨by ring, by ring⟩
  simpa using key foods 0 0

theorem weightSum_pos (l : List FoodItem) (hl : l ≠ [])
    (hw : ∀ f ∈ l, 0 < f.weight) : 0 < weightSum l := by
  induction l with
  | nil => exact absurd rfl hl
  | cons f r ih =>
    rcases r with _ | ⟨g, r'⟩
    · simpa [weightSum] using hw f (by simp)
    · have h1 : 0 < f.weight := hw f (by simp)
      have h2 : 0 < weightSum (g :: r') := by
        apply ih (by simp)
        intro x hx
        exact hw x (by simp [hx])
      simpa [weightSum] using add_pos h1 h2

theorem weightSum_nonneg (l : List FoodItem)
    (hw : ∀ f ∈ l, 0 < f.weight) : 0 ≤ weightSum l := by
  rcases eq_or_ne l [] with h | h
  · simp [h, weightSum]
  · exact le_of_lt (weightSum_pos l h hw)

end BasicLemmas

section GreedyLemmas

theorem greedyLoop_eq_append (total_weight : ℚ) :
    ∀ (l : List percentItem) (acc : ℚ) (out : List FoodItem),
      greedyLoop total_weight l acc out = out ++ greedySelect total_weight l acc := by
  intro l
  induction l with
  | nil => intro acc out; simp [greedyLoop, greedySelect]
  | cons p rest ih =>
    intro acc out
    by_cases h : acc + p.item.weight ≤ total_weight
    · simp [greedyLoop, greedySelect, h, ih]
    · simp [greedyLoop, greedySelect, h, ih]

theorem greedy_eq_greedySelect (foods : List FoodItem) (total_weight : ℚ) :
    greedy_max_calories foods total_weight =
      greedySelect total_weight (percentRanking foods) 0 := by
  simpa using greedyLoop_eq_append total_weight (percentRanking foods) 0 []

theorem greedySelect_weight_le (total_weight : ℚ) :
    ∀ (l : List percentItem) (acc : ℚ), acc ≤ total_weight →
      acc + weightSum (greedySelect total_weight l acc) ≤ total_weight := by
  intro l
  induction l with
  | nil => intro acc h; simpa [greedySelect, weightSum] using h
  | cons p rest ih =>
    intro acc h
    by_cases hw : acc + p.item.weight ≤ total_weight
    · have := ih (acc + p.item.weight) hw
      simp only [greedySelect, if_pos hw, weightSum]
      linarith
    · simpa [greedySelect, if_neg hw] using ih acc h

theorem greedySelect_sublist (total_weight : ℚ) :
    ∀ (l : List percentItem) (acc : ℚ),
      (greedySelect total_weight l acc).Sublist (l.map percentItem.item) := by
  intro l
  induction l with
  | nil => intro acc; simp [greedySelect]
  | cons p rest ih =>
    intro acc
    by_cases hw : acc + p.item.weight ≤ total_weight
    · simpa [greedySelect, if_pos hw] using (ih (acc + p.item.weight)).cons₂ p.item
    · simpa [greedySelect, if_neg hw] using (ih acc).cons p.item

theorem greedySelect_nil_of_nonpos (total_weight : ℚ)
    (hcap : total_weight ≤ 0) :
    ∀ l : List percentItem, (∀ p ∈ l, 0 < p.item.weight) →
      greedySelect total_weight l 0 = [] := by
  intro l
  induction l with
  | nil => intro _; simp [greedySelect]
  | cons p rest ih =>
    intro hpos
    have hw : ¬ (0 + p.item.weight ≤ total_weight) := by
      have := hpos p (by simp)
      intro hle
      linarith
    simp only [greedySelect, if_neg hw]
    exact ih (fun q hq => hpos q (by simp [hq]))

theorem percentItemVector_map_item (foods : List FoodItem) :
    (percentItemVector foods).map percentItem.item = foods := by
  induction foods with
  | nil => simp [percentItemVector]
  | cons f r ih => simpa [percentItemVector] using ih

theorem percentRanking_perm (foods : List FoodItem) :
    (percentRanking foods).Perm (percentItemVector foods) :=
  List.perm_insertionSort rankGE (percentItemVector foods)

theorem percentRanking_sorted (foods : List FoodItem) :
    List.Sorted rankGE (percentRanking foods) :=
  List.sorted_insertionSort rankGE (percentItemVector foods)

theorem percentRanking_map_perm (foods : List FoodItem) :
    ((percentRanking foods).map percentItem.item).Perm foods := by
  have h := (percentRanking_perm foods).map percentItem.item
  rwa [percentItemVector_map_item] at h

theorem mem_percentRanking (foods : List FoodItem) (p : percentItem)
    (hp : p ∈ percentRanking foods) :
    p.item ∈ foods ∧ p.percent = p.item.calories / p.item.weight := by
  have h1 : p ∈ percentItemVector foods := (percentRanking_perm foods).mem_iff.mp hp
  rcases List.mem_map.mp h1 with ⟨food, hfood, heq⟩
  constructor
  · rw [← heq]; exact hfood
  · rw [← heq]

end GreedyLemmas

section ExStepLemmas

theorem exStep_pos (total_weight : ℚ) (s : List FoodItem × ℚ)
    (S : List FoodItem) (h1 : weightSum S ≤ total_weight)
    (h2 : s.2 < calSum S) : exStep total_weight s S = (S, calSum S) := by
  unfold exStep
  exact if_pos ⟨h1, h2⟩

theorem exStep_neg (total_weight : ℚ) (s : List FoodItem × ℚ)
    (S : List FoodItem)
    (h : ¬ (weightSum S ≤ total_weight ∧ s.2 < calSum S)) :
    exStep total_weight s S = s := by
  unfold exStep
  exact if_neg h

theorem exStep_snd_le (total_weight : ℚ) (s : List FoodItem × ℚ)
    (S : List FoodItem) : s.2 ≤ (exStep total_weight s S).2 := by
  unfold exStep
  by_cases h : weightSum S ≤ total_weight ∧ s.2 < calSum S
  · simpa [h] using le_of_lt h.2
  · simp [h]

theorem exStep_of_absorbed (total_weight : ℚ) (s : List FoodItem × ℚ)
    (S : List FoodItem) (h : weightSum S ≤ total_weight → calSum S ≤ s.2) :
    exStep total_weight s S = s := by
  unfold exStep
  rw [if_neg]
  rintro ⟨h1, h2⟩
  exact absurd (h h1) (not_le.mpr h2)

theorem foldl_exStep_snd_le (total_weight : ℚ) :
    ∀ (E : List (List FoodItem)) (s : List FoodItem × ℚ),
      s.2 ≤ (E.foldl (exStep total_weight) s).2 := by
  intro E
  induction E with
  | nil => intro s; simp
  | cons S rest ih =>
    intro s
    calc s.2 ≤ (exStep total_weight s S).2 := exStep_snd_le total_weight s S
      _ ≤ _ := ih (exStep total_weight s S)

theorem foldl_exStep_absorbed (total_weight : ℚ) :
    ∀ (E : List (List FoodItem)) (s : List FoodItem × ℚ),
      (∀ S ∈ E, weightSum S ≤ total_weight → calSum S ≤ s.2) →
      E.foldl (exStep total_weight) s = s := by
  intro E
  induction E with
  | nil => intro s _; simp
  | cons S rest ih =>
    intro s habs
    have h1 : exStep total_weight s S = s :=
      exStep_of_absorbed total_weight s S (habs S (by simp))
    simp only [List.foldl_cons, h1]
    exact ih s (fun T hT => habs T (by simp [hT]))

theorem foldl_exStep_mem_le (total_weight : ℚ) :
    ∀ (E : List (List FoodItem)) (s : List FoodItem × ℚ) (S : List FoodItem),
      S ∈ E → weightSum S ≤ total_weight →
      calSum S ≤ (E.foldl (exStep total_weight) s).2 := by
  intro E
  induction E with
  | nil => intro s S h; simp at h
  | cons T rest ih =>
    intro s S hmem hfeas
    rcases List.mem_cons.mp hmem with h | h
    · subst h
      have hstep : calSum S ≤ (exStep total_weight s S).2 := by
        unfold exStep
        by_cases hc : weightSum S ≤ total_weight ∧ s.2 < calSum S
        · simp [hc]
        · rw [if_neg hc]
          rcases not_and_or.mp hc with h1 | h2
          · exact absurd hfeas h1
          · exact not_lt.mp h2
      calc calSum S ≤ (exStep total_weight s S).2 := hstep
        _ ≤ _ := foldl_exStep_snd_le total_weight rest (exStep total_weight s S)
    · exact ih (exStep total_weight s T) S h hfeas

end ExStepLemmas

section InnerLoopLemmas

theorem bitFilter_zero : ∀ l : List FoodItem, bitFilter 0 l = [] := by
  intro l
  induction l with
  | nil => rfl
  | cons f r ih => simpa [bitFilter] using ih

theorem bitFilter_sublist : ∀ (l : List FoodItem) (m : ℕ),
    (bitFilter m l).Sublist l := by
  intro l
  induction l with
  | nil => intro m; simp [bitFilter]
  | cons f r ih =>
    intro m
    by_cases h : m % 2 = 1
    · simpa [bitFilter, h] using (ih (m / 2)).cons₂ f
    · simpa [bitFilter, h] using (ih (m / 2)).cons f

theorem sublist_eq_bitFilter {L foods : List FoodItem} (h : L.Sublist foods) :
    ∃ m < 2 ^ foods.length, L = bitFilter m foods := by
  induction h with
  | slnil => exact ⟨0, by norm_num, rfl⟩
  | cons a h ih =>
    rcases ih with ⟨m, hm, rfl⟩
    refine ⟨2 * m, ?_, ?_⟩
    · simp only [List.length_cons, pow_succ]
      omega
    · have h2 : (2 * m) % 2 = 0 := Nat.mul_mod_right 2 m
      have h3 : (2 * m) / 2 = m := by omega
      simp [bitFilter, h2, h3]
  | cons₂ a h ih =>
    rcases ih with ⟨m, hm, rfl⟩
    refine ⟨2 * m + 1, ?_, ?_⟩
    · simp only [List.length_cons, pow_succ]
      omega
    · have h2 : (2 * m + 1) % 2 = 1 := by omega
      have h3 : (2 * m + 1) / 2 = m := by omega
      simp [bitFilter, h2, h3]

theorem exhaustiveInner_eq_foldl (total_weight : ℚ) :
    ∀ (l : List FoodItem) (bit : ℕ) (cand : List FoodItem)
      (best : List FoodItem × ℚ),
      exhaustiveInner total_weight bit l cand (weightSum cand) (calSum cand)
          best =
        (prefixEvents cand bit l).foldl (exStep total_weight) best := by
  intro l
  induction l with
  | nil => intro bit cand best; simp [exhaustiveInner, prefixEvents]
  | cons food rest ih =>
    intro bit cand best
    by_cases h : bit % 2 = 1
    · have hw : weightSum cand + food.weight = weightSum (cand ++ [food]) := by
        simp [weightSum_append, weightSum]
      have hc : calSum cand + food.calories = calSum (cand ++ [food]) := by
        simp [calSum_append, calSum]
      have hstep :
          (if weightSum (cand ++ [food]) ≤ total_weight then
              if best.2 < calSum (cand ++ [food]) then
                (cand ++ [food], calSum (cand ++ [food]))
              else best
            else best) = exStep total_weight best (cand ++ [food]) := by
        unfold exStep
        by_cases h1 : weightSum (cand ++ [food]) ≤ total_weight <;>
          by_cases h2 : best.2 < calSum (cand ++ [food]) <;>
            simp [h1, h2]
      simp only [exhaustiveInner, prefixEvents, if_pos h, hw, hc, hstep,
        List.foldl_cons]
      exact ih (bit / 2) (cand ++ [food]) (exStep total_weight best (cand ++ [food]))
    · have hstep :
          (if weightSum cand ≤ total_weight then
              if best.2 < calSum cand then (cand, calSum cand) else best
            else best) = exStep total_weight best cand := by
        unfold exStep
        by_cases h1 : weightSum cand ≤ total_weight <;>
          by_cases h2 : best.2 < calSum cand <;>
            simp [h1, h2]
      simp only [exhaustiveInner, prefixEvents, if_neg h, hstep, List.foldl_cons]
      exact ih (bit / 2) cand (exStep total_weight best cand)

theorem map_range'_succ_shift {α : Type} (g : ℕ → α) :
    ∀ (n s : ℕ), (List.range' (s + 1) n).map g =
      (List.range' s n).map (fun j => g (j + 1)) := by
  intro n
  induction n with
  | zero => intro s; simp
  | succ n ih =>
    intro s
    simp only [List.range'_succ, List.map_cons, ih (s + 1)]

theorem bit_mod_pow_succ_mod_two (bit j : ℕ) :
    bit % 2 ^ (j + 1) % 2 = bit % 2 :=
  Nat.mod_mod_of_dvd bit (dvd_pow_self 2 (Nat.succ_ne_zero j))

theorem bit_mod_pow_succ_div_two (bit j : ℕ) :
    bit % 2 ^ (j + 1) / 2 = bit / 2 % 2 ^ j := by
  rw [pow_succ, mul_comm]
  exact Nat.mod_mul_right_div_self bit 2 (2 ^ j)

theorem bitFilter_cons_split (bit : ℕ) (food : FoodItem) (rest : List FoodItem) :
    bitFilter bit (food :: rest) =
      (if bit % 2 = 1 then [food] else []) ++ bitFilter (bit / 2) rest := rfl

theorem prefixEvents_closed :
    ∀ (l : List FoodItem) (bit : ℕ) (cand : List FoodItem),
      prefixEvents cand bit l =
        (List.range' 1 l.length).map
          (fun j => cand ++ bitFilter (bit % 2 ^ j) l) := by
  intro l
  induction l with
  | nil => intro bit cand; simp [prefixEvents]
  | cons food rest ih =>
    intro bit cand
    have hhead : cand ++ bitFilter (bit % 2 ^ 1) (food :: rest) =
        (if bit % 2 = 1 then cand ++ [food] else cand) := by
      rw [bitFilter_cons_split]
      have h1 : bit % 2 ^ 1 % 2 = bit % 2 := bit_mod_pow_succ_mod_two bit 0
      have h2 : bit % 2 ^ 1 / 2 = 0 := by
        have : bit % 2 ^ 1 < 2 ^ 1 := Nat.mod_lt bit (by norm_num)
        omega
      rw [h1, h2, bitFilter_zero]
      by_cases h : bit % 2 = 1 <;> simp [h]
    have htail : ∀ j : ℕ,
        cand ++ bitFilter (bit % 2 ^ (j + 1)) (food :: rest) =
          (if bit % 2 = 1 then cand ++ [food] else cand) ++
            bitFilter (bit / 2 % 2 ^ j) rest := by
      intro j
      rw [bitFilter_cons_split, bit_mod_pow_succ_mod_two,
        bit_mod_pow_succ_div_two]
      by_cases h : bit % 2 = 1 <;> simp [h]
    simp only [prefixEvents, List.length_cons, List.range'_succ, List.map_cons,
      hhead]
    rw [show (1 : ℕ) + 1 = 1 + 1 from rfl, map_range'_succ_shift, ih]
    have hfun :
        (fun j =>
            (if bit % 2 = 1 then cand ++ [food] else cand) ++
              bitFilter (bit / 2 % 2 ^ j) rest) =
          (fun j : ℕ => cand ++ bitFilter (bit % 2 ^ (j + 1)) (food :: rest)) := by
      funext j
      exact (htail j).symm
    rw [hfun]

end InnerLoopLemmas

section BlockLemmas

theorem block_eq (total_weight : ℚ) (foods : List FoodItem) (b : ℕ)
    (hb : b < 2 ^ foods.length) (s : List FoodItem × ℚ) (hs : 0 ≤ s.2)
    (habs : ∀ m, m < b → weightSum (bitFilter m foods) ≤ total_weight →
      calSum (bitFilter m foods) ≤ s.2) :
    (prefixEvents [] b foods).foldl (exStep total_weight) s =
      exStep total_weight s (bitFilter b foods) := by
  rcases Nat.eq_zero_or_pos foods.length with hn | hn
  · have hfoods : foods = [] := List.length_eq_zero.mp hn
    subst hfoods
    have hb0 : b = 0 := by simpa using hb
    subst hb0
    have hR : exStep total_weight s (bitFilter 0 []) = s := by
      apply exStep_of_absorbed
      intro _
      simpa [bitFilter_zero, calSum] using hs
    simp [prefixEvents, hR]
  · have hkn : Nat.log2 b + 1 ≤ foods.length := by
      rcases Nat.eq_zero_or_pos b with hb0 | hbpos
      · have : Nat.log2 b = 0 := by
          subst hb0
          exact Nat.le_zero.mp (Nat.log2_le_self 0)
        omega
      · have : Nat.log2 b < foods.length :=
          (Nat.log2_lt (Nat.pos_iff_ne_zero.mp hbpos)).mpr hb
        omega
    rw [prefixEvents_closed]
    simp only [List.nil_append]
    have hsum : (foods.length - Nat.log2 b) + Nat.log2 b = foods.length := by
      omega
    have hsplit : List.range' 1 foods.length =
        List.range' 1 (Nat.log2 b) ++
          List.range' (1 + Nat.log2 b) (foods.length - Nat.log2 b) := by
      rw [List.range'_append_1, hsum]
    rw [hsplit, List.map_append, List.foldl_append]
    have h1 : (List.map (fun j => bitFilter (b % 2 ^ j) foods)
        (List.range' 1 (Nat.log2 b))).foldl (exStep total_weight) s = s := by
      apply foldl_exStep_absorbed
      intro S hS hfeas
      rcases List.mem_map.mp hS with ⟨j, hj, rfl⟩
      rcases List.mem_range'.mp hj with ⟨i, hik, hji⟩
      have hbne : b ≠ 0 := by
        intro h0
        have : Nat.log2 b = 0 := by
          subst h0
          exact Nat.le_zero.mp (Nat.log2_le_self 0)
        omega
      have hjk : j ≤ Nat.log2 b := by omega
      have hple : 2 ^ j ≤ b :=
        le_trans (Nat.pow_le_pow_right (by norm_num) hjk) (Nat.log2_self_le hbne)
      have hmlt : b % 2 ^ j < b :=
        lt_of_lt_of_le (Nat.mod_lt b (Nat.pos_of_ne_zero (by positivity))) hple
      exact habs _ hmlt hfeas
    rw [h1]
    obtain ⟨d, hd⟩ : ∃ d, foods.length - Nat.log2 b = d + 1 :=
      ⟨foods.length - Nat.log2 b - 1, by omega⟩
    rw [hd, List.range'_succ, List.map_cons, List.foldl_cons]
    have hfirst : b % 2 ^ (1 + Nat.log2 b) = b := by
      apply Nat.mod_eq_of_lt
      calc b < 2 ^ (Nat.log2 b + 1) := Nat.lt_log2_self
        _ ≤ 2 ^ (1 + Nat.log2 b) := by rw [Nat.add_comm]
    rw [hfirst]
    apply foldl_exStep_absorbed
    intro S hS hfeas
    rcases List.mem_map.mp hS with ⟨j, hj, rfl⟩
    rcases List.mem_range'.mp hj with ⟨i, hid, hji⟩
    have hjge : Nat.log2 b + 1 ≤ j := by omega
    have hmod : b % 2 ^ j = b := by
      apply Nat.mod_eq_of_lt
      exact lt_of_lt_of_le Nat.lt_log2_self
        (Nat.pow_le_pow_right (by norm_num) hjge)
    rw [hmod]
    rw [hmod] at hfeas
    unfold exStep
    by_cases hc : weightSum (bitFilter b foods) ≤ total_weight ∧
        s.2 < calSum (bitFilter b foods)
    · simp [hc]
    · rw [if_neg hc]
      rcases not_and_or.mp hc with h | h
      · exact absurd hfeas h
      · exact not_lt.mp h

theorem specState_eq_foldl_map (foods : List FoodItem) (total_weight : ℚ)
    (B : ℕ) :
    specState foods total_weight B =
      ((List.range B).map (fun m => bitFilter m foods)).foldl
        (exStep total_weight) ([], 0) := by
  unfold specState
  rw [List.foldl_map]

theorem specState_snd_nonneg (foods : List FoodItem) (total_weight : ℚ)
    (B : ℕ) : 0 ≤ (specState foods total_weight B).2 := by
  rw [specState_eq_foldl_map]
  simpa using foldl_exStep_snd_le total_weight
    ((List.range B).map (fun m => bitFilter m foods)) ([], 0)

theorem specState_snd_ge (foods : List FoodItem) (total_weight : ℚ)
    (B m : ℕ) (hm : m < B)
    (hfeas : weightSum (bitFilter m foods) ≤ total_weight) :
    calSum (bitFilter m foods) ≤ (specState foods total_weight B).2 := by
  rw [specState_eq_foldl_map]
  exact foldl_exStep_mem_le total_weight _ ([], 0) _
    (List.mem_map.mpr ⟨m, List.mem_range.mpr hm, rfl⟩) hfeas

theorem specState_succ (foods : List FoodItem) (total_weight : ℚ) (B : ℕ) :
    specState foods total_weight (B + 1) =
      exStep total_weight (specState foods total_weight B)
        (bitFilter B foods) := by
  unfold specState
  rw [List.range_succ, List.foldl_append, List.foldl_cons, List.foldl_nil]

theorem foldl_blocks_eq_spec (total_weight : ℚ) (foods : List FoodItem) :
    ∀ B, B ≤ 2 ^ foods.length →
      (List.range B).foldl
        (fun best bit =>
          (prefixEvents [] bit foods).foldl (exStep total_weight) best)
        ([], 0) =
      specState foods total_weight B := by
  intro B
  induction B with
  | zero => intro _; simp [specState]
  | succ B ih =>
    intro hB
    have hBlt : B < 2 ^ foods.length := lt_of_lt_of_le (Nat.lt_succ_self B) hB
    rw [List.range_succ, List.foldl_append, List.foldl_cons, List.foldl_nil,
      ih (le_of_lt hBlt), specState_succ]
    exact block_eq total_weight foods B hBlt _
      (specState_snd_nonneg foods total_weight B)
      (fun m hm hfeas => specState_snd_ge foods total_weight B m hm hfeas)

theorem exhaustive_eq_specState (foods : List FoodItem) (total_weight : ℚ) :
    exhaustive_max_calories foods total_weight =
      (specState foods total_weight (2 ^ foods.length)).1 := by
  unfold exhaustive_max_calories
  have hfe : (fun (best : List FoodItem × ℚ) (bit : ℕ) =>
      exhaustiveInner total_weight bit foods [] 0 0 best) =
      (fun best bit =>
        (prefixEvents [] bit foods).foldl (exStep total_weight) best) := by
    funext best bit
    exact exhaustiveInner_eq_foldl total_weight foods bit [] best
  rw [hfe, foldl_blocks_eq_spec total_weight foods _ (le_refl _)]

theorem exhaustiveSpec_eq_specState (foods : List FoodItem)
    (total_weight : ℚ) :
    exhaustiveSpec foods total_weight =
      (specState foods total_weight (2 ^ foods.length)).1 := rfl

theorem specState_char (foods : List FoodItem) (total_weight : ℚ) :
    ∀ B : ℕ,
      (specState foods total_weight B = ([], 0) ∧
        ∀ m, m < B → weightSum (bitFilter m foods) ≤ total_weight →
          calSum (bitFilter m foods) ≤ 0) ∨
      (∃ m, m < B ∧
        specState foods total_weight B =
          (bitFilter m foods, calSum (bitFilter m foods)) ∧
        weightSum (bitFilter m foods) ≤ total_weight ∧
        0 < calSum (bitFilter m foods) ∧
        (∀ m', m' < B → weightSum (bitFilter m' foods) ≤ total_weight →
          calSum (bitFilter m' foods) ≤ calSum (bitFilter m foods)) ∧
        (∀ m', m' < m → weightSum (bitFilter m' foods) ≤ total_weight →
          calSum (bitFilter m' foods) < calSum (bitFilter m foods))) := by
  intro B
  induction B with
  | zero =>
    left
    refine ⟨by simp [specState], ?_⟩
    intro m hm
    exact absurd hm (Nat.not_lt_zero m)
  | succ B ih =>
    rw [specState_succ]
    rcases ih with ⟨hst, hall⟩ | ⟨m, hmB, hst, hfeas, hpos, hmax, hfirst⟩
    · rw [hst]
      by_cases hc : weightSum (bitFilter B foods) ≤ total_weight ∧
          (0 : ℚ) < calSum (bitFilter B foods)
      · right
        refine ⟨B, Nat.lt_succ_self B,
          exStep_pos total_weight ([], 0) (bitFilter B foods) hc.1 hc.2,
          hc.1, hc.2, ?_, ?_⟩
        · intro m' hm' hfeas'
          rcases Nat.lt_succ_iff_lt_or_eq.mp hm' with h | h
          · exact le_trans (hall m' h hfeas') (le_of_lt hc.2)
          · subst h; exact le_refl _
        · intro m' hm' hfeas'
          exact lt_of_le_of_lt (hall m' hm' hfeas') hc.2
      · left
        refine ⟨exStep_neg total_weight ([], 0) (bitFilter B foods) hc, ?_⟩
        intro m hm hfeas'
        rcases Nat.lt_succ_iff_lt_or_eq.mp hm with h | h
        · exact hall m h hfeas'
        · subst h
          rcases not_and_or.mp hc with h1 | h2
          · exact absurd hfeas' h1
          · exact not_lt.mp h2
    · rw [hst]
      by_cases hc : weightSum (bitFilter B foods) ≤ total_weight ∧
          calSum (bitFilter m foods) < calSum (bitFilter B foods)
      · right
        refine ⟨B, Nat.lt_succ_self B,
          exStep_pos total_weight _ (bitFilter B foods) hc.1 hc.2,
          hc.1, lt_trans hpos hc.2, ?_, ?_⟩
        · intro m' hm' hfeas'
          rcases Nat.lt_succ_iff_lt_or_eq.mp hm' with h | h
          · exact le_trans (hmax m' h hfeas') (le_of_lt hc.2)
          · subst h; exact le_refl _
        · intro m' hm' hfeas'
          exact lt_of_le_of_lt (hmax m' hm' hfeas') hc.2
      · right
        refine ⟨m, Nat.lt_succ_of_lt hmB,
          exStep_neg total_weight _ (bitFilter B foods) hc,
          hfeas, hpos, ?_, hfirst⟩
        intro m' hm' hfeas'
        rcases Nat.lt_succ_iff_lt_or_eq.mp hm' with h | h
        · exact hmax m' h hfeas'
        · subst h
          rcases not_and_or.mp hc with h1 | h2
          · exact absurd hfeas' h1
          · exact not_lt.mp h2

theorem exhaustive_result_sublist (foods : List FoodItem)
    (total_weight : ℚ) :
    (exhaustive_max_calories foods total_weight).Sublist foods := by
  rw [exhaustive_eq_specState]
  rcases specState_char foods total_weight (2 ^ foods.length) with
    ⟨hst, _⟩ | ⟨m, _, hst, _⟩
  · rw [hst]
    exact List.nil_sublist foods
  · rw [hst]
    exact bitFilter_sublist foods m

end BlockLemmas

section ClaimTheorems

/-- C10: for every catalog small enough that the C++ `int` counter is exact,
the implemented exhaustive search, which re-evaluates feasibility and
best-so-far after each item is added while building a subset's running totals,
returns exactly the same selection as the spec's algorithm that evaluates each
full subset once per counter value: the redundant prefix re-checks never
change the returned subset. -/
theorem exhaustive_matches_spec_enumeration (foods : List FoodItem)
    (total_weight : ℚ) (_hsize : foods.length < 31) :
    exhaustive_max_calories foods total_weight =
      exhaustiveSpec foods total_weight := by
  rw [exhaustive_eq_specState, exhaustiveSpec_eq_specState]

/-- Witness for C10 at a concrete one-item catalog. -/
theorem exhaustive_matches_spec_enumeration_witness :
    exhaustive_max_calories [⟨"apple", 1, 1⟩] 1 =
      exhaustiveSpec [⟨"apple", 1, 1⟩] 1 :=
  exhaustive_matches_spec_enumeration [⟨"apple", 1, 1⟩] 1 (by decide)

/-- C1, counterexample: with a negative capacity both solvers return the empty
selection, whose total weight `0` exceeds the capacity `-1`; the claim's
"for every capacity" is therefore false as stated. -/
theorem feasibility_fails_for_negative_capacity :
    ¬ (weightSum (greedy_max_calories [] (-1)) ≤ (-1 : ℚ) ∧
       weightSum (exhaustive_max_calories [] (-1)) ≤ (-1 : ℚ)) := by
  intro h
  have h0 : weightSum (greedy_max_calories [] (-1)) = 0 := rfl
  have h1 := h.1
  rw [h0] at h1
  norm_num at h1

/-- C1 (amended): for every catalog small enough that the C++ `int` counter
of the exhaustive solver is exact and every nonnegative capacity, both
`greedy_max_calories` and `exhaustive_max_calories` return a selection whose
total weight is at most the capacity. -/
theorem feasibility_of_nonneg_capacity (foods : List FoodItem)
    (total_weight : ℚ) (_hsize : foods.length < 31)
    (hcap : 0 ≤ total_weight) :
    weightSum (greedy_max_calories foods total_weight) ≤ total_weight ∧
    weightSum (exhaustive_max_calories foods total_weight) ≤ total_weight := by
  constructor
  · rw [greedy_eq_greedySelect]
    have h := greedySelect_weight_le total_weight (percentRanking foods) 0 hcap
    linarith
  · rw [exhaustive_eq_specState]
    rcases specState_char foods total_weight (2 ^ foods.length) with
      ⟨hst, _⟩ | ⟨m, _, hst, hfeas, _⟩
    · rw [hst]
      simpa [weightSum] using hcap
    · rw [hst]
      exact hfeas

/-- Witness for C1's amended theorem at a concrete catalog and capacity. -/
theorem feasibility_of_nonneg_capacity_witness :
    weightSum (greedy_max_calories [⟨"apple", 1, 1⟩] 0) ≤ 0 ∧
    weightSum (exhaustive_max_calories [⟨"apple", 1, 1⟩] 0) ≤ 0 :=
  feasibility_of_nonneg_capacity [⟨"apple", 1, 1⟩] 0 (by decide) (le_refl 0)

/-- C2: for every catalog small enough that the C++ `int` counter is exact,
the total calories of the selection returned by `exhaustive_max_calories` are
at least the total calories of every subset of the catalog whose total weight
fits the capacity. -/
theorem exhaustive_exactness (foods : List FoodItem) (total_weight : ℚ)
    (_hsize : foods.length < 31) (L : List FoodItem) (hL : L.Sublist foods)
    (hfeas : weightSum L ≤ total_weight) :
    calSum L ≤ calSum (exhaustive_max_calories foods total_weight) := by
  rcases sublist_eq_bitFilter hL with ⟨m, hm, rfl⟩
  rw [exhaustive_eq_specState]
  rcases specState_char foods total_weight (2 ^ foods.length) with
    ⟨hst, hall⟩ | ⟨m', _, hst, _, _, hmax, _⟩
  · rw [hst]
    simpa [calSum] using hall m hm hfeas
  · rw [hst]
    exact hmax m hm hfeas

/-- Witness for C2 at a concrete catalog, capacity and feasible subset. -/
theorem exhaustive_exactness_witness :
    calSum [] ≤ calSum (exhaustive_max_calories [⟨"apple", 1, 1⟩] 0) :=
  exhaustive_exactness [⟨"apple", 1, 1⟩] 0 (by decide) []
    (List.nil_sublist _) (le_refl 0)

/-- C4: `greedy_max_calories` equals the spec's selection rule applied to its
ranking — include an item iff the accumulated weight plus the item's weight
stays within the capacity, never revisiting a rejected item — and the ranking
is a permutation of the catalog's items sorted by non-increasing
calories-per-weight percentage, each paired percentage being the item's
calories divided by its weight. -/
theorem greedy_implements_ranked_selection (foods : List FoodItem)
    (total_weight : ℚ) :
    greedy_max_calories foods total_weight =
      greedySelect total_weight (percentRanking foods) 0 ∧
    (percentRanking foods).Pairwise (fun a b => b.percent ≤ a.percent) ∧
    ((percentRanking foods).map percentItem.item).Perm foods ∧
    ∀ p ∈ percentRanking foods,
      p.percent = p.item.calories / p.item.weight := by
  refine ⟨greedy_eq_greedySelect foods total_weight, ?_,
    percentRanking_map_perm foods,
    fun p hp => (mem_percentRanking foods p hp).2⟩
  exact (percentRanking_sorted foods).imp (fun h => not_lt.mp h)

/-- C3: the claim describes a `CapacityExceededInputSize` rejection, but the
code has no size check and no error path at all: it computes
`int bitSize = pow(2, foods.size())`, and that conversion is already
undefined behavior (`none`) for every catalog size from 31 up — far below the
bound of 64 documented in the source comment — while for sizes up to 30 the
enumeration silently proceeds. -/
theorem bitSize_overflow_no_guard :
    cppIntOfPow2 62 = none ∧ cppIntOfPow2 31 = none ∧
    cppIntOfPow2 30 = some ((2 : ℤ) ^ 30) := by
  refine ⟨?_, ?_, ?_⟩ <;> norm_num [cppIntOfPow2]

/-- C6, counterexample: the greedy selection comes back in ranking order, not
catalog order — for the catalog `[a, b]` with `b` of higher calories-per-
weight, the result `[b, a]` is not a sub-sequence of the catalog. -/
theorem selection_not_subsequence_of_catalog :
    ¬ (greedy_max_calories [⟨"a", 1, 1⟩, ⟨"b", 1, 2⟩] 2).Sublist
        [⟨"a", 1, 1⟩, ⟨"b", 1, 2⟩] := by
  have hg : greedy_max_calories [⟨"a", 1, 1⟩, ⟨"b", 1, 2⟩] 2 =
      [⟨"b", 1, 2⟩, ⟨"a", 1, 1⟩] := by
    norm_num [greedy_max_calories, percentRanking, percentItemVector,
      List.insertionSort, List.orderedInsert, rankGE, sortPercentage,
      greedyLoop]
  rw [hg]
  intro h
  exact absurd (h.eq_of_length (by simp)) (by decide)

/-- C6 (amended): for every catalog small enough that the C++ `int` counter
of the exhaustive solver is exact, the exhaustive selection is an ordered
sub-sequence of the input catalog; the greedy selection is an ordered
sub-sequence of its calories-per-weight ranking — it preserves ranking order,
not catalog order. -/
theorem selection_subsequence_structure (foods : List FoodItem)
    (total_weight : ℚ) (_hsize : foods.length < 31) :
    (exhaustive_max_calories foods total_weight).Sublist foods ∧
    (greedy_max_calories foods total_weight).Sublist
      ((percentRanking foods).map percentItem.item) := by
  refine ⟨exhaustive_result_sublist foods total_weight, ?_⟩
  rw [greedy_eq_greedySelect]
  exact greedySelect_sublist total_weight (percentRanking foods) 0

/-- Witness for C6's amended theorem at a concrete one-item catalog. -/
theorem selection_subsequence_structure_witness :
    (exhaustive_max_calories [⟨"apple", 1, 1⟩] 1).Sublist [⟨"apple", 1, 1⟩] ∧
    (greedy_max_calories [⟨"apple", 1, 1⟩] 1).Sublist
      ((percentRanking [⟨"apple", 1, 1⟩]).map percentItem.item) :=
  selection_subsequence_structure [⟨"apple", 1, 1⟩] 1 (by decide)

/-- C7, counterexample: when the catalog itself contains the same item twice,
the exhaustive selection legitimately contains it twice, so a selected item
need not be "present exactly once" in the catalog. -/
theorem membership_exactly_once_fails_on_duplicates :
    ¬ (∀ x ∈ exhaustive_max_calories [⟨"a", 1, 1⟩, ⟨"a", 1, 1⟩] 2,
        ([⟨"a", 1, 1⟩, ⟨"a", 1, 1⟩] : List FoodItem).count x = 1) := by
  have he : exhaustive_max_calories [⟨"a", 1, 1⟩, ⟨"a", 1, 1⟩] 2 =
      [⟨"a", 1, 1⟩, ⟨"a", 1, 1⟩] := by
    norm_num [exhaustive_max_calories, exhaustiveInner, List.range_succ]
  rw [he]
  intro h
  exact absurd (h ⟨"a", 1, 1⟩ (by simp)) (by decide)

/-- C7 (amended): for every catalog small enough that the C++ `int` counter
of the exhaustive solver is exact, each solver's selection is a
sub-permutation of the input catalog: every selected item equals (same
description/weight/calories) an item of the catalog, each catalog occurrence
is used at most once, and in particular no item is fabricated and no item is
duplicated beyond its multiplicity in the catalog. -/
theorem selection_subperm_of_catalog (foods : List FoodItem)
    (total_weight : ℚ) (_hsize : foods.length < 31) :
    (greedy_max_calories foods total_weight).Subperm foods ∧
    (exhaustive_max_calories foods total_weight).Subperm foods ∧
    (∀ x, (greedy_max_calories foods total_weight).count x ≤ foods.count x) ∧
    (∀ x, (exhaustive_max_calories foods total_weight).count x ≤
      foods.count x) := by
  have hg : (greedy_max_calories foods total_weight).Subperm foods := by
    rw [greedy_eq_greedySelect]
    exact ((greedySelect_sublist total_weight
      (percentRanking foods) 0).subperm).trans
      (percentRanking_map_perm foods).subperm
  have he : (exhaustive_max_calories foods total_weight).Subperm foods :=
    (exhaustive_result_sublist foods total_weight).subperm
  exact ⟨hg, he, fun x => hg.count_le x, fun x => he.count_le x⟩

/-- Witness for C7's amended theorem at a concrete one-item catalog. -/
theorem selection_subperm_of_catalog_witness :
    (greedy_max_calories [⟨"apple", 1, 1⟩] 1).Subperm [⟨"apple", 1, 1⟩] ∧
    (exhaustive_max_calories [⟨"apple", 1, 1⟩] 1).Subperm [⟨"apple", 1, 1⟩] ∧
    (∀ x, (greedy_max_calories [⟨"apple", 1, 1⟩] 1).count x ≤
      ([⟨"apple", 1, 1⟩] : List FoodItem).count x) ∧
    (∀ x, (exhaustive_max_calories [⟨"apple", 1, 1⟩] 1).count x ≤
      ([⟨"apple", 1, 1⟩] : List FoodItem).count x) :=
  selection_subperm_of_catalog [⟨"apple", 1, 1⟩] 1 (by decide)

/-- C8: for an empty catalog or a nonpositive capacity — the catalog small
enough that the C++ `int` counter of the exhaustive solver is exact — both
solvers return normally with the empty selection, whose totals as computed by
`sum_food_vector` are `(0, 0)`. -/
theorem degenerate_inputs_yield_empty_selection (foods : List FoodItem)
    (total_weight : ℚ) (_hsize : foods.length < 31)
    (hw : ∀ f ∈ foods, 0 < f.weight)
    (hdeg : foods = [] ∨ total_weight ≤ 0) :
    greedy_max_calories foods total_weight = [] ∧
    exhaustive_max_calories foods total_weight = [] ∧
    sum_food_vector (greedy_max_calories foods total_weight) = (0, 0) ∧
    sum_food_vector (exhaustive_max_calories foods total_weight) = (0, 0) := by
  have hg : greedy_max_calories foods total_weight = [] := by
    rcases hdeg with h | h
    · subst h; rfl
    · rw [greedy_eq_greedySelect]
      apply greedySelect_nil_of_nonpos total_weight h
      intro p hp
      exact hw p.item (mem_percentRanking foods p hp).1
  have he : exhaustive_max_calories foods total_weight = [] := by
    rw [exhaustive_eq_specState]
    rcases specState_char foods total_weight (2 ^ foods.length) with
      ⟨hst, _⟩ | ⟨m, _, hst, hfeas, hpos, _⟩
    · rw [hst]
    · exfalso
      rcases hdeg with h | h
      · subst h
        rw [show bitFilter m ([] : List FoodItem) = [] from rfl] at hpos
        simp [calSum] at hpos
      · by_cases hS : bitFilter m foods = []
        · rw [hS] at hpos
          simp [calSum] at hpos
        · have hposW : 0 < weightSum (bitFilter m foods) :=
            weightSum_pos _ hS
              (fun f hf => hw f ((bitFilter_sublist foods m).subset hf))
          linarith
  exact ⟨hg, he, by rw [hg]; rfl, by rw [he]; rfl⟩

/-- Witness for C8 at a concrete one-item catalog with capacity `0`. -/
theorem degenerate_inputs_yield_empty_selection_witness :
    greedy_max_calories [⟨"apple", 2, 5⟩] 0 = [] ∧
    exhaustive_max_calories [⟨"apple", 2, 5⟩] 0 = [] ∧
    sum_food_vector (greedy_max_calories [⟨"apple", 2, 5⟩] 0) = (0, 0) ∧
    sum_food_vector (exhaustive_max_calories [⟨"apple", 2, 5⟩] 0) = (0, 0) :=
  degenerate_inputs_yield_empty_selection [⟨"apple", 2, 5⟩] 0 (by decide)
    (by decide) (Or.inr (le_refl 0))

/-- C9: exhaustive tie-breaking, for every catalog small enough that the C++
`int` counter is exact — the returned selection is the subset of the first
(smallest) counter value achieving the maximum feasible calories, every
earlier feasible counter having strictly smaller calories (the effect of the
strict greater-than comparison); and when no subset, the empty one included,
has strictly positive feasible calories, the result is the empty selection. -/
theorem exhaustive_tie_break_first_counter (foods : List FoodItem)
    (total_weight : ℚ) (_hsize : foods.length < 31) :
    ((∀ m, m < 2 ^ foods.length →
        weightSum (bitFilter m foods) ≤ total_weight →
        calSum (bitFilter m foods) ≤ 0) →
      exhaustive_max_calories foods total_weight = []) ∧
    (∀ m₀, m₀ < 2 ^ foods.length →
      weightSum (bitFilter m₀ foods) ≤ total_weight →
      0 < calSum (bitFilter m₀ foods) →
      ∃ m, m < 2 ^ foods.length ∧
        exhaustive_max_calories foods total_weight = bitFilter m foods ∧
        weightSum (bitFilter m foods) ≤ total_weight ∧
        (∀ m', m' < 2 ^ foods.length →
          weightSum (bitFilter m' foods) ≤ total_weight →
          calSum (bitFilter m' foods) ≤ calSum (bitFilter m foods)) ∧
        (∀ m', m' < m →
          weightSum (bitFilter m' foods) ≤ total_weight →
          calSum (bitFilter m' foods) < calSum (bitFilter m foods))) := by
  constructor
  · intro hall
    rw [exhaustive_eq_specState]
    rcases specState_char foods total_weight (2 ^ foods.length) with
      ⟨hst, _⟩ | ⟨m, hm, hst, hfeas, hpos, _, _⟩
    · rw [hst]
    · exact absurd hpos (not_lt.mpr (hall m hm hfeas))
  · intro m₀ hm₀ hfeas₀ hpos₀
    rcases specState_char foods total_weight (2 ^ foods.length) with
      ⟨hst, hall⟩ | ⟨m, hm, hst, hfeas, hpos, hmax, hfirst⟩
    · exact absurd hpos₀ (not_lt.mpr (hall m₀ hm₀ hfeas₀))
    · refine ⟨m, hm, ?_, hfeas, hmax, hfirst⟩
      rw [exhaustive_eq_specState, hst]

/-- Witness for C9 at a concrete one-item catalog where the only feasible
positive-calorie subset is the whole catalog. -/
theorem exhaustive_tie_break_first_counter_witness :
    ∃ m, m < 2 ^ ([⟨"apple", 1, 1⟩] : List FoodItem).length ∧
      exhaustive_max_calories [⟨"apple", 1, 1⟩] 1 =
        bitFilter m [⟨"apple", 1, 1⟩] ∧
      weightSum (bitFilter m [⟨"apple", 1, 1⟩]) ≤ 1 ∧
      (∀ m', m' < 2 ^ ([⟨"apple", 1, 1⟩] : List FoodItem).length →
        weightSum (bitFilter m' [⟨"apple", 1, 1⟩]) ≤ 1 →
        calSum (bitFilter m' [⟨"apple", 1, 1⟩]) ≤
          calSum (bitFilter m [⟨"apple", 1, 1⟩])) ∧
      (∀ m', m' < m →
        weightSum (bitFilter m' [⟨"apple", 1, 1⟩]) ≤ 1 →
        calSum (bitFilter m' [⟨"apple", 1, 1⟩]) <
          calSum (bitFilter m [⟨"apple", 1, 1⟩])) :=
  (exhaustive_tie_break_first_counter [⟨"apple", 1, 1⟩] 1 (by decide)).2 1
    (by decide)
    (by simp [bitFilter, bitFilter_zero, weightSum])
    (by simp [bitFilter, bitFilter_zero, calSum])

end ClaimTheorems
